import Mathlib

/-!
Verification of the document-to-prompt pipeline of a React/Express PDF
study-question application.

The core logic is the function cleanAndGenerateQuestions of the
QuestionBox component:

  const cleanedText = text
    .replace(/[^a-zA-Z0-9.,!? \n]/g, " ")
    .replace(/\s+/g, " ")
    .replace(/\n+/g, " ")
    .trim();
  const sentences = cleanedText.split(/\. |\? |! /).filter(s => s.length > 30);
  const generatedQuestions = sentences.slice(0, 5).map((sentence, idx) => {
    return a string of the form Q(idx+1): What does this mean? -> "(trimmed)?"
  });

together with the page-text extraction loop of the PDFUploader component

  const pageText = content.items.map(item => item.str).join(" ");
  text += pageText + "\n";

and the Express upload handler of server.js.  Each JavaScript operation
is embedded below as a Lean function over List Char / String, following
ECMAScript semantics of replace, split, trim, slice and map.
-/

namespace PdfQuiz

/-- Character class of the regex [^a-zA-Z0-9.,!? \n] complement: the
characters the first replace pass keeps unchanged. -/
def allowedChar (c : Char) : Bool :=
  ('a' ≤ c && c ≤ 'z') || ('A' ≤ c && c ≤ 'Z') || ('0' ≤ c && c ≤ '9') ||
  c = '.' || c = ',' || c = '!' || c = '?' || c = ' ' || c = '\n'

/-- The ECMAScript whitespace class \s (space, tab, line terminators,
and the Unicode space separators), used by the second replace pass and
by String.prototype.trim. -/
def isWs (c : Char) : Bool :=
  c = ' ' || c = '\t' || c = '\n' || c = '\r' ||
  c = '\x0b' || c = '\x0c' || c = ' ' || c = ' ' ||
  (' ' ≤ c && c ≤ ' ') ||
  c = ' ' || c = ' ' || c = ' ' || c = ' ' ||
  c = '　' || c = '﻿'

/-- First pass: .replace(/[^a-zA-Z0-9.,!? \n]/g, " ") — every character
outside the allow-list becomes one space. -/
def replaceDisallowed (l : List Char) : List Char :=
  l.map (fun c => if allowedChar c then c else ' ')

/-- Second pass: .replace(/\s+/g, " ") — every maximal run of whitespace
becomes a single space.  A whitespace character followed by another
whitespace character is dropped; the last character of a run becomes
the single space. -/
def collapseWs : List Char → List Char
  | [] => []
  | [c] => if isWs c then [' '] else [c]
  | c :: d :: cs =>
    if isWs c && isWs d then collapseWs (d :: cs)
    else (if isWs c then ' ' else c) :: collapseWs (d :: cs)

/-- Third pass: .replace(/\n+/g, " ") — every maximal run of newlines
becomes a single space. -/
def collapseNl : List Char → List Char
  | [] => []
  | [c] => if c = '\n' then [' '] else [c]
  | c :: d :: cs =>
    if c = '\n' && d = '\n' then collapseNl (d :: cs)
    else (if c = '\n' then ' ' else c) :: collapseNl (d :: cs)

/-- String.prototype.trim: remove leading and trailing whitespace. -/
def trimChars (l : List Char) : List Char :=
  ((l.dropWhile isWs).reverse.dropWhile isWs).reverse

/-- The Text Normalizer: the four chained operations producing
cleanedText, on character lists. -/
def normalizeChars (l : List Char) : List Char :=
  trimChars (collapseNl (collapseWs (replaceDisallowed l)))

/-- The Text Normalizer on strings. -/
def normalizeStr (s : String) : String :=
  String.mk (normalizeChars s.data)

/-- Does the two-character window (a, b) match the split regex
/\. |\? |! / ?  The three alternatives start with distinct characters,
so at most one matches at a given position. -/
def isDelimPair (a b : Char) : Bool :=
  (a = '.' || a = '?' || a = '!') && b = ' '

/-- Left-to-right scan of String.prototype.split on /\. |\? |! /:
acc holds the current piece reversed; on a delimiter match both its
characters are consumed and a piece is emitted. -/
def splitSentAux : List Char → List Char → List (List Char)
  | [], acc => [acc.reverse]
  | [c], acc => [(c :: acc).reverse]
  | a :: b :: rest, acc =>
    if isDelimPair a b then acc.reverse :: splitSentAux rest []
    else splitSentAux (b :: rest) (a :: acc)

/-- cleanedText.split(/\. |\? |! /) on character lists.  Note that on
the empty list this yields [[]], matching ECMAScript "".split(re) = [""]. -/
def splitSent (l : List Char) : List (List Char) :=
  splitSentAux l []

/-- The Sentence Segmenter on strings. -/
def segmentStr (s : String) : List String :=
  (splitSent s.data).map String.mk

/-- The Candidate Filter: .filter(s => s.length > 30). -/
def candidateFilter (l : List String) : List String :=
  l.filter (fun s => 30 < s.length)

/-- String.prototype.trim on strings, as used by sentence.trim() in the
prompt template. -/
def jsTrim (s : String) : String :=
  String.mk (trimChars s.data)

/-- The prompt template applied to the sentence at 0-based index idx. -/
def promptFor (idx : Nat) (sentence : String) : String :=
  "Q" ++ toString (idx + 1) ++ ": What does this mean? → \"" ++ (jsTrim sentence) ++ "?\""

/-- The Prompt Synthesizer: sentences.slice(0, 5).map((sentence, idx) => ...). -/
def synthesize (sentences : List String) : List String :=
  (sentences.take 5).mapIdx promptFor

/-- The full Normalizer → Segmenter → Filter → Synthesizer pipeline,
i.e. the body of cleanAndGenerateQuestions in QuestionBox. -/
def cleanAndGenerateQuestions (text : String) : List String :=
  synthesize (candidateFilter (segmentStr (normalizeStr text)))

/-- Absence of a whitespace pair at adjacent positions: the relation whose
Chain' closure says a character list has no run of two whitespace
characters. -/
def noWsPair (a b : Char) : Prop := ¬(isWs a = true ∧ isWs b = true)

/-- The characters that may appear in NormalizedText: the ASCII allow-list
letters, digits and the four punctuation marks, plus the space. -/
def cleanChar (c : Char) : Bool :=
  ('a' ≤ c && c ≤ 'z') || ('A' ≤ c && c ≤ 'Z') || ('0' ≤ c && c ≤ '9') ||
  c = '.' || c = ',' || c = '!' || c = '?' || c = ' '

/-- The three two-character delimiter tokens of the split regex. -/
def delimTokens : List (List Char) := [['.', ' '], ['?', ' '], ['!', ' ']]

/-- Absence of a delimiter match at adjacent positions. -/
def noDelim (a b : Char) : Prop := ¬ isDelimPair a b = true

/-- Interleave pieces with delimiter tokens: the inverse direction of the
split, used to state that the segmenter returns the substrings of its
input in original order. -/
def joinPieces : List (List Char) → List (List Char) → List Char
  | [p], [] => p
  | p :: ps, d :: ds => p ++ d ++ joinPieces ps ds
  | _, _ => []

/-- Does some position of the list match one of the three delimiter
tokens? -/
def containsDelim : List Char → Bool
  | [] => false
  | [_] => false
  | a :: b :: rest => isDelimPair a b || containsDelim (b :: rest)

/-- Page text assembly: content.items.map(item => item.str).join(" "),
applied to the list of text fragments of one page. -/
def pageTextOf (items : List String) : String :=
  String.intercalate " " items

/-- The extraction loop of PDFUploader.handleFileChange: starting from
the empty string, append each page's text followed by one newline. -/
def documentTextLoop (pages : List (List String)) : String :=
  pages.foldl (fun text page => text ++ pageTextOf page ++ "\n") ""

/-- Response body of the upload endpoint: a JSON object with either a
text field or an error field. -/
inductive RespBody where
  | textField (t : String) : RespBody
  | errorField (e : String) : RespBody
deriving DecidableEq

/-- The Express handler of server.js for POST /upload: 400 when no file
was uploaded, 500 when pdfParse throws, otherwise 200 with the parsed
text.  The pdf-parse library is an external collaborator and is passed
in as a function returning Except. -/
def uploadHandler {α : Type} (pdfParse : α → Except Unit String) (file : Option α) :
    Nat × RespBody :=
  match file with
  | none => (400, RespBody.errorField "No file uploaded")
  | some buf =>
    match pdfParse buf with
    | Except.ok data => (200, RespBody.textField data)
    | Except.error _ => (500, RespBody.errorField "Failed to parse PDF")

/-- The frontend flow of PDFUploader.handleFileChange followed by
QuestionBox: decode the buffer into pages of text fragments, build
DocumentText with the extraction loop, and derive the prompt list; when
the decoder rejects the buffer nothing is produced. -/
def fullPipeline {α : Type} (getDocument : α → Except Unit (List (List String)))
    (buf : α) : Option (String × List String) :=
  match getDocument buf with
  | Except.ok pages => some (documentTextLoop pages, cleanAndGenerateQuestions (documentTextLoop pages))
  | Except.error _ => none

theorem mem_replaceDisallowed {l : List Char} {c : Char}
    (hc : c ∈ replaceDisallowed l) : allowedChar c = true := by
  simp only [replaceDisallowed, List.mem_map] at hc
  obtain ⟨a, _, rfl⟩ := hc
  by_cases h : allowedChar a = true
  · rw [if_pos h]; exact h
  · rw [if_neg h]; decide

theorem collapseWs_head (l : List Char) :
    (collapseWs l).head? = l.head?.map (fun c => if isWs c then ' ' else c) := by
  induction l using collapseWs.induct with
  | case1 => rfl
  | case2 c h => simp [collapseWs, h]
  | case3 c h => simp [collapseWs, h]
  | case4 c d cs h ih =>
    rw [collapseWs, if_pos h, ih]
    have h12 : isWs c = true ∧ isWs d = true := by
      constructor <;> [exact Bool.and_elim_left h; exact Bool.and_elim_right h]
    obtain ⟨h1, h2⟩ := h12
    simp [h1, h2]
  | case5 c d cs h ih =>
    rw [collapseWs, if_neg h]
    rfl

theorem collapseWs_mem {l : List Char} {x : Char}
    (hx : x ∈ collapseWs l) : x = ' ' ∨ x ∈ l := by
  induction l using collapseWs.induct with
  | case1 => simp [collapseWs] at hx
  | case2 c h => rw [collapseWs, if_pos h] at hx; simp at hx; left; exact hx
  | case3 c h => rw [collapseWs, if_neg h] at hx; simp at hx; right; simp [hx]
  | case4 c d cs h ih =>
    rw [collapseWs, if_pos h] at hx
    rcases ih hx with h1 | h1
    · left; exact h1
    · right; simp [List.mem_cons] at h1 ⊢; tauto
  | case5 c d cs h ih =>
    rw [collapseWs, if_neg h] at hx
    rcases List.mem_cons.mp hx with h1 | h1
    · by_cases hc : isWs c
      · left; simpa [hc] using h1
      · right; simp [hc] at h1; simp [h1]
    · rcases ih h1 with h2 | h2
      · left; exact h2
      · right; simp [List.mem_cons] at h2 ⊢; tauto

theorem collapseWs_ws_space {l : List Char} {x : Char}
    (hx : x ∈ collapseWs l) (hw : isWs x = true) : x = ' ' := by
  induction l using collapseWs.induct with
  | case1 => simp [collapseWs] at hx
  | case2 c h => rw [collapseWs, if_pos h] at hx; simpa using hx
  | case3 c h =>
    rw [collapseWs, if_neg h] at hx
    simp at hx
    subst hx; exact absurd hw (by simpa using h)
  | case4 c d cs h ih => rw [collapseWs, if_pos h] at hx; exact ih hx
  | case5 c d cs h ih =>
    rw [collapseWs, if_neg h] at hx
    rcases List.mem_cons.mp hx with h1 | h1
    · by_cases hc : isWs c = true
      · simpa [hc] using h1
      · simp [hc] at h1
        subst h1
        exact absurd hw hc
    · exact ih h1

theorem collapseWs_chain (l : List Char) : List.Chain' noWsPair (collapseWs l) := by
  induction l using collapseWs.induct with
  | case1 => simp [collapseWs]
  | case2 c h => rw [collapseWs, if_pos h]; exact List.chain'_singleton _
  | case3 c h => rw [collapseWs, if_neg h]; exact List.chain'_singleton _
  | case4 c d cs h ih => rw [collapseWs, if_pos h]; exact ih
  | case5 c d cs h ih =>
    rw [collapseWs, if_neg h]
    rw [List.chain'_cons']
    refine ⟨?_, ih⟩
    intro y hy
    rw [collapseWs_head (d :: cs)] at hy
    simp at hy
    subst hy
    have h' : ¬(isWs c = true ∧ isWs d = true) := by
      intro hp
      exact absurd (by simp [hp.1, hp.2]) h
    by_cases hc : isWs c = true
    · have hd : ¬ isWs d = true := fun hd => h' ⟨hc, hd⟩
      simp [noWsPair, hc, hd]
    · simp [noWsPair, hc]

theorem collapseNl_id : ∀ l : List Char, (∀ c ∈ l, c ≠ '\n') → collapseNl l = l := by
  intro l
  induction l using collapseNl.induct with
  | case1 => intro h; rfl
  | case2 => intro h; exact absurd rfl (h '\n' (by simp))
  | case3 c hc => intro h; simp [collapseNl, hc]
  | case4 c d cs hc ih =>
    intro h
    have hc' : c = '\n' := by simpa using Bool.and_elim_left hc
    exact absurd hc' (h c (by simp))
  | case5 c d cs hc ih =>
    intro h
    have hc' : ¬ c = '\n' := h c (by simp)
    rw [collapseNl, if_neg hc, if_neg hc',
      ih (fun x hx => h x (List.mem_cons_of_mem c hx))]

theorem head_dropWhile_not_ws {l : List Char} {y : Char}
    (hy : (l.dropWhile isWs).head? = some y) : isWs y = false := by
  have := List.head?_dropWhile_not isWs l
  rw [hy] at this
  exact this

theorem trimChars_mem {l : List Char} {x : Char} (hx : x ∈ trimChars l) : x ∈ l := by
  unfold trimChars at hx
  rw [List.mem_reverse] at hx
  have h1 := (List.dropWhile_sublist isWs).mem hx
  rw [List.mem_reverse] at h1
  exact (List.dropWhile_sublist isWs).mem h1

theorem noWsPair_symm {a b : Char} (hab : noWsPair a b) : noWsPair b a := by
  intro hp
  exact hab ⟨hp.2, hp.1⟩

theorem trimChars_chain {l : List Char} (h : List.Chain' noWsPair l) :
    List.Chain' noWsPair (trimChars l) := by
  have h1 : List.Chain' noWsPair (l.dropWhile isWs) :=
    h.suffix (List.dropWhile_suffix isWs)
  have h2 : List.Chain' noWsPair (l.dropWhile isWs).reverse := by
    rw [List.chain'_reverse]
    exact h1.imp (fun a b hab => noWsPair_symm hab)
  have h3 : List.Chain' noWsPair ((l.dropWhile isWs).reverse.dropWhile isWs) :=
    h2.suffix (List.dropWhile_suffix isWs)
  unfold trimChars
  rw [List.chain'_reverse]
  exact h3.imp (fun a b hab => noWsPair_symm hab)

theorem trimChars_head_not_ws {l : List Char} {y : Char}
    (hy : (trimChars l).head? = some y) : isWs y = false := by
  unfold trimChars at hy
  rw [List.head?_reverse] at hy
  obtain ⟨t, ht⟩ := @List.dropWhile_suffix Char ((l.dropWhile isWs).reverse) isWs
  have hlast : ((l.dropWhile isWs).reverse).getLast? = some y := by
    rw [← ht, List.getLast?_append, hy]
    rfl
  rw [List.getLast?_reverse] at hlast
  exact head_dropWhile_not_ws hlast

theorem trimChars_getLast_not_ws {l : List Char} {y : Char}
    (hy : (trimChars l).getLast? = some y) : isWs y = false := by
  unfold trimChars at hy
  rw [List.getLast?_reverse] at hy
  exact head_dropWhile_not_ws hy


theorem normalizeChars_normalForm (l : List Char) :
    (∀ c ∈ normalizeChars l, allowedChar c = true ∧ (isWs c = true → c = ' ')) ∧
    List.Chain' noWsPair (normalizeChars l) ∧
    (∀ y, (normalizeChars l).head? = some y → isWs y = false) ∧
    (∀ y, (normalizeChars l).getLast? = some y → isWs y = false) := by
  have hno : ∀ c ∈ collapseWs (replaceDisallowed l), c ≠ '\n' := by
    intro c hc hcn
    subst hcn
    exact absurd (collapseWs_ws_space hc (by decide)) (by decide)
  have hid : collapseNl (collapseWs (replaceDisallowed l)) = collapseWs (replaceDisallowed l) :=
    collapseNl_id _ hno
  have heq : normalizeChars l = trimChars (collapseWs (replaceDisallowed l)) := by
    unfold normalizeChars
    rw [hid]
  refine ⟨?_, ?_, ?_, ?_⟩
  · intro c hc
    rw [heq] at hc
    have hc2 := trimChars_mem hc
    constructor
    · rcases collapseWs_mem hc2 with h1 | h1
      · subst h1; decide
      · exact mem_replaceDisallowed h1
    · intro hw
      exact collapseWs_ws_space hc2 hw
  · rw [heq]
    exact trimChars_chain (collapseWs_chain _)
  · intro y hy
    rw [heq] at hy
    exact trimChars_head_not_ws hy
  · intro y hy
    rw [heq] at hy
    exact trimChars_getLast_not_ws hy

theorem replaceDisallowed_id {l : List Char} (h : ∀ c ∈ l, allowedChar c = true) :
    replaceDisallowed l = l := by
  unfold replaceDisallowed
  have h2 : ∀ a ∈ l, (if allowedChar a = true then a else ' ') = id a :=
    fun a ha => by rw [if_pos (h a ha)]; rfl
  rw [List.map_congr_left h2, List.map_id]

theorem collapseWs_id : ∀ l : List Char, List.Chain' noWsPair l →
    (∀ x ∈ l, isWs x = true → x = ' ') → collapseWs l = l := by
  intro l
  induction l using collapseWs.induct with
  | case1 => intro _ _; rfl
  | case2 c h =>
    intro _ hws
    rw [collapseWs, if_pos h, hws c (by simp) h]
  | case3 c h =>
    intro _ _
    rw [collapseWs, if_neg h]
  | case4 c d cs h ih =>
    intro hchain _
    have h12 : isWs c = true ∧ isWs d = true := by
      constructor <;> [exact Bool.and_elim_left h; exact Bool.and_elim_right h]
    exact absurd h12 (List.chain'_cons.mp hchain).1
  | case5 c d cs h ih =>
    intro hchain hws
    rw [collapseWs, if_neg h]
    rw [ih (List.chain'_cons.mp hchain).2 (fun x hx hw => hws x (List.mem_cons_of_mem c hx) hw)]
    by_cases hc : isWs c = true
    · rw [if_pos hc, hws c (by simp) hc]
    · rw [if_neg hc]

theorem dropWhile_id_of_head {l : List Char} (h : ∀ y, l.head? = some y → isWs y = false) :
    l.dropWhile isWs = l := by
  cases l with
  | nil => rfl
  | cons a l =>
    rw [List.dropWhile_cons]
    rw [h a rfl]
    simp

theorem trimChars_id {l : List Char} (hh : ∀ y, l.head? = some y → isWs y = false)
    (hl : ∀ y, l.getLast? = some y → isWs y = false) : trimChars l = l := by
  unfold trimChars
  rw [dropWhile_id_of_head hh]
  rw [dropWhile_id_of_head (fun y hy => hl y (by rwa [List.head?_reverse] at hy))]
  exact List.reverse_reverse l

theorem normalizeChars_idem (l : List Char) :
    normalizeChars (normalizeChars l) = normalizeChars l := by
  obtain ⟨hchars, hchain, hhead, hlast⟩ := normalizeChars_normalForm l
  have h1 : replaceDisallowed (normalizeChars l) = normalizeChars l :=
    replaceDisallowed_id (fun c hc => (hchars c hc).1)
  have h2 : collapseWs (normalizeChars l) = normalizeChars l :=
    collapseWs_id _ hchain (fun x hx hw => (hchars x hx).2 hw)
  have h3 : collapseNl (normalizeChars l) = normalizeChars l := by
    refine collapseNl_id _ ?_
    intro c hc hcn
    subst hcn
    exact absurd ((hchars _ hc).2 (by decide)) (by decide)
  have h4 : trimChars (normalizeChars l) = normalizeChars l :=
    trimChars_id hhead hlast
  show trimChars (collapseNl (collapseWs (replaceDisallowed (normalizeChars l)))) = _
  rw [h1, h2, h3, h4]

theorem cleanChar_of_allowed {c : Char} (h : allowedChar c = true) (hn : c ≠ '\n') :
    cleanChar c = true := by
  simp only [allowedChar, Bool.or_eq_true, decide_eq_true_eq, Bool.and_eq_true] at h
  simp only [cleanChar, Bool.or_eq_true, decide_eq_true_eq, Bool.and_eq_true]
  rcases h with ((((((((h | h) | h) | h) | h) | h) | h) | h) | h)
  · tauto
  · tauto
  · tauto
  · tauto
  · tauto
  · tauto
  · tauto
  · tauto
  · exact absurd h hn
theorem delimToken_of_pair {a b : Char} (h : isDelimPair a b = true) :
    [a, b] ∈ delimTokens := by
  have hb : b = ' ' := by
    simp only [isDelimPair, Bool.and_eq_true, decide_eq_true_eq] at h
    exact h.2
  have ha : a = '.' ∨ a = '?' ∨ a = '!' := by
    simp only [isDelimPair, Bool.and_eq_true, Bool.or_eq_true, decide_eq_true_eq] at h
    tauto
  subst hb
  rcases ha with ha | ha | ha <;> subst ha <;> simp [delimTokens]

theorem pair_of_delimToken {d : List Char} (h : d ∈ delimTokens) :
    ∃ a b, d = [a, b] ∧ isDelimPair a b = true := by
  simp only [delimTokens, List.mem_cons, List.not_mem_nil, or_false] at h
  rcases h with h | h | h <;> subst h
  · exact ⟨'.', ' ', rfl, by decide⟩
  · exact ⟨'?', ' ', rfl, by decide⟩
  · exact ⟨'!', ' ', rfl, by decide⟩

theorem splitSentAux_ne_nil : ∀ l acc : List Char, splitSentAux l acc ≠ [] := by
  intro l acc
  induction l, acc using splitSentAux.induct with
  | case1 acc => simp [splitSentAux]
  | case2 c acc => simp [splitSentAux]
  | case3 a b rest acc h ih => rw [splitSentAux, if_pos h]; simp
  | case4 a b rest acc h ih => rw [splitSentAux, if_neg h]; exact ih

theorem splitSentAux_join : ∀ l acc : List Char, ∃ ds,
    (∀ d ∈ ds, d ∈ delimTokens) ∧
    acc.reverse ++ l = joinPieces (splitSentAux l acc) ds := by
  intro l acc
  induction l, acc using splitSentAux.induct with
  | case1 acc =>
    refine ⟨[], by simp, ?_⟩
    simp [splitSentAux, joinPieces]
  | case2 c acc =>
    refine ⟨[], by simp, ?_⟩
    simp [splitSentAux, joinPieces, List.reverse_cons]
  | case3 a b rest acc h ih =>
    obtain ⟨ds, hds, hjoin⟩ := ih
    refine ⟨[a, b] :: ds, ?_, ?_⟩
    · intro d hd
      rcases List.mem_cons.mp hd with h1 | h1
      · subst h1; exact delimToken_of_pair h
      · exact hds d h1
    · rw [splitSentAux, if_pos h]
      obtain ⟨p, ps, hps⟩ : ∃ p ps, splitSentAux rest [] = p :: ps := by
        cases hs : splitSentAux rest [] with
        | nil => exact absurd hs (splitSentAux_ne_nil rest [])
        | cons p ps => exact ⟨p, ps, rfl⟩
      rw [hps]
      show acc.reverse ++ a :: b :: rest = acc.reverse ++ [a, b] ++ joinPieces (p :: ps) ds
      rw [← hps, ← hjoin]
      simp
  | case4 a b rest acc h ih =>
    obtain ⟨ds, hds, hjoin⟩ := ih
    refine ⟨ds, hds, ?_⟩
    rw [splitSentAux, if_neg h, ← hjoin]
    simp [List.reverse_cons]

theorem chain'_take_one (l : List Char) : List.Chain' noDelim (l.take 1) := by
  cases l with
  | nil => simp
  | cons a t => simp

theorem splitSentAux_chain : ∀ l acc : List Char,
    List.Chain' noDelim (acc.reverse ++ l.take 1) →
    ∀ p ∈ splitSentAux l acc, List.Chain' noDelim p := by
  intro l acc
  induction l, acc using splitSentAux.induct with
  | case1 acc =>
    intro hch p hp
    simp only [splitSentAux, List.mem_singleton] at hp
    subst hp
    simpa using hch
  | case2 c acc =>
    intro hch p hp
    simp only [splitSentAux, List.mem_singleton] at hp
    subst hp
    rw [List.reverse_cons]
    simpa using hch
  | case3 a b rest acc h ih =>
    intro hch p hp
    rw [splitSentAux, if_pos h] at hp
    rcases List.mem_cons.mp hp with h1 | h1
    · subst h1
      exact hch.prefix ⟨[a], rfl⟩
    · exact ih (by simpa using chain'_take_one rest) p h1
  | case4 a b rest acc h ih =>
    intro hch p hp
    rw [splitSentAux, if_neg h] at hp
    refine ih ?_ p hp
    rw [List.reverse_cons]
    have htake : (b :: rest).take 1 = [b] := rfl
    have htake2 : (a :: b :: rest).take 1 = [a] := rfl
    rw [htake]
    rw [htake2] at hch
    rw [List.chain'_append]
    refine ⟨hch, List.chain'_singleton b, ?_⟩
    intro x hx y hy
    rw [List.getLast?_concat] at hx
    simp at hx hy
    subst hx; subst hy
    exact h

theorem splitSent_chain (l : List Char) : ∀ p ∈ splitSent l, List.Chain' noDelim p := by
  refine splitSentAux_chain l [] ?_
  simpa using chain'_take_one l

theorem chain_of_not_containsDelim : ∀ l : List Char,
    containsDelim l = false → List.Chain' noDelim l := by
  intro l
  induction l using containsDelim.induct with
  | case1 => intro _; simp
  | case2 c => intro _; simp
  | case3 a b rest ih =>
    intro h
    rw [containsDelim, Bool.or_eq_false_iff] at h
    exact List.chain'_cons.mpr ⟨by simp [noDelim, h.1], ih h.2⟩

theorem not_containsDelim_of_chain : ∀ l : List Char,
    List.Chain' noDelim l → containsDelim l = false := by
  intro l
  induction l using containsDelim.induct with
  | case1 => intro _; rfl
  | case2 c => intro _; rfl
  | case3 a b rest ih =>
    intro h
    obtain ⟨h1, h2⟩ := List.chain'_cons.mp h
    rw [containsDelim, Bool.or_eq_false_iff]
    exact ⟨by simpa [noDelim] using h1, ih h2⟩

theorem containsDelim_of_decomp : ∀ (pre d post : List Char), d ∈ delimTokens →
    containsDelim (pre ++ d ++ post) = true := by
  intro pre d post hd
  obtain ⟨a, b, rfl, hab⟩ := pair_of_delimToken hd
  induction pre with
  | nil =>
    show containsDelim (a :: b :: post) = true
    rw [containsDelim, hab, Bool.true_or]
  | cons p pre ih =>
    show containsDelim (p :: (pre ++ [a, b] ++ post)) = true
    cases hq : pre ++ [a, b] ++ post with
    | nil => simp at hq
    | cons q t =>
      rw [containsDelim, ← hq, ih, Bool.or_true]

theorem containsDelim_iff : ∀ l : List Char, containsDelim l = true ↔
    ∃ pre d post, d ∈ delimTokens ∧ l = pre ++ d ++ post := by
  intro l
  constructor
  · induction l using containsDelim.induct with
    | case1 => intro h; simp [containsDelim] at h
    | case2 c => intro h; simp [containsDelim] at h
    | case3 a b rest ih =>
      intro h
      rw [containsDelim, Bool.or_eq_true] at h
      rcases h with h | h
      · exact ⟨[], [a, b], rest, delimToken_of_pair h, rfl⟩
      · obtain ⟨pre, d, post, hd, heq⟩ := ih h
        exact ⟨a :: pre, d, post, hd, by simp [heq]⟩
  · rintro ⟨pre, d, post, hd, rfl⟩
    exact containsDelim_of_decomp pre d post hd

theorem chain_no_decomp {q : List Char} (hch : List.Chain' noDelim q) :
    ∀ pre d post, d ∈ delimTokens → q ≠ pre ++ d ++ post := by
  intro pre d post hd heq
  have h1 : containsDelim q = false := not_containsDelim_of_chain q hch
  have h2 : containsDelim q = true := (containsDelim_iff q).mpr ⟨pre, d, post, hd, heq⟩
  rw [h1] at h2
  exact Bool.false_ne_true h2

theorem splitSentAux_nodelim : ∀ l acc : List Char, List.Chain' noDelim l →
    splitSentAux l acc = [acc.reverse ++ l] := by
  intro l acc
  induction l, acc using splitSentAux.induct with
  | case1 acc => intro _; simp [splitSentAux]
  | case2 c acc => intro _; simp [splitSentAux, List.reverse_cons]
  | case3 a b rest acc h ih =>
    intro hch
    exact absurd h (by simpa [noDelim] using (List.chain'_cons.mp hch).1)
  | case4 a b rest acc h ih =>
    intro hch
    rw [splitSentAux, if_neg h, ih (List.chain'_cons.mp hch).2]
    simp [List.reverse_cons]

theorem mk_data (s : String) : String.mk s.data = s := by
  obtain ⟨d⟩ := s
  rfl
theorem foldl_append_shift {β : Type} (f : β → String) (l : List β) (acc : String) :
    l.foldl (fun r x => r ++ f x) acc = acc ++ l.foldl (fun r x => r ++ f x) "" := by
  induction l generalizing acc with
  | nil => exact (String.append_empty acc).symm
  | cons a l ih =>
    rw [List.foldl_cons, List.foldl_cons, ih (acc ++ f a), ih ("" ++ f a),
      String.empty_append, String.append_assoc]

theorem joinStr_cons (a : String) (l : List String) :
    String.join (a :: l) = a ++ String.join l := by
  show l.foldl (fun r x => r ++ x) ("" ++ a) = _
  rw [foldl_append_shift (fun x => x) l ("" ++ a), String.empty_append]
  rfl

theorem joinStr_nil : String.join ([] : List String) = "" := rfl

theorem documentTextLoop_eq_join (pages : List (List String)) :
    documentTextLoop pages = String.join (pages.map (fun p => pageTextOf p ++ "\n")) := by
  have hfun : (fun (text : String) (page : List String) => text ++ pageTextOf page ++ "\n")
      = (fun (text : String) (page : List String) => text ++ (pageTextOf page ++ "\n")) := by
    funext t p; rw [String.append_assoc]
  induction pages with
  | nil => rfl
  | cons p ps ih =>
    show List.foldl _ _ (p :: ps) = _
    rw [List.foldl_cons, List.map_cons, joinStr_cons, ← ih]
    show ps.foldl _ ("" ++ pageTextOf p ++ "\n") = _
    rw [hfun, foldl_append_shift (fun page => pageTextOf page ++ "\n") ps,
      String.empty_append]
    unfold documentTextLoop
    rw [hfun]

theorem intercalate_go_eq (s : String) (l : List String) (acc : String) :
    String.intercalate.go acc s l = acc ++ String.join (l.map (fun x => s ++ x)) := by
  induction l generalizing acc with
  | nil => simp [String.intercalate.go, String.join, String.append_empty]
  | cons a as ih =>
    rw [String.intercalate.go, ih, List.map_cons, joinStr_cons]
    simp [String.append_assoc]
/-- Claim C1, counterexample: on the spec's end-to-end input the pipeline does
not return the prompt list the spec gives.  The input's final period is not
followed by a space, so the segmenter leaves it attached to the second
sentence and the second prompt ends in a period before the template's
question mark. -/
theorem pipeline_example_cex :
    cleanAndGenerateQuestions "The mitochondria is the powerhouse of the cell. It performs cellular respiration constantly." ≠
      ["Q1: What does this mean? → \"The mitochondria is the powerhouse of the cell?\"",
       "Q2: What does this mean? → \"It performs cellular respiration constantly?\""] := by
  decide

/-- Claim C1, amended: on the spec's end-to-end input the pipeline returns
exactly two prompts, the first as the spec gives it, and the second keeping
the sentence's own trailing period before the template's question mark. -/
theorem pipeline_example_amended :
    cleanAndGenerateQuestions "The mitochondria is the powerhouse of the cell. It performs cellular respiration constantly." =
      ["Q1: What does this mean? → \"The mitochondria is the powerhouse of the cell?\"",
       "Q2: What does this mean? → \"It performs cellular respiration constantly.?\""] := by
  decide

/-- Claim C2: the Prompt Synthesizer takes at most the first 5 candidates in
original order, and the prompt at 0-based index i is exactly the template
string with ordinal i+1 and the trimmed candidate; an empty filtered input
yields an empty prompt list. -/
theorem synthesizer_cap_template (cands : List String) (i : Nat) :
    (synthesize cands).length = min cands.length 5 ∧
    (i < cands.length → i < 5 →
      (synthesize cands).getD i "" =
        "Q" ++ toString (i + 1) ++ ": What does this mean? → \"" ++ jsTrim (cands.getD i "") ++ "?\"") ∧
    (cands = [] → synthesize cands = []) := by
  refine ⟨?_, ?_, ?_⟩
  · simp [synthesize, Nat.min_comm]
  · intro hlen h5
    have h1 : i < (synthesize cands).length := by
      simp [synthesize]; omega
    rw [List.getD_eq_getElem _ _ h1, List.getD_eq_getElem _ _ hlen]
    simp only [synthesize, List.getElem_mapIdx, List.getElem_take]
    rfl
  · intro h; subst h; rfl

/-- Claim C2, witness at a concrete candidate list and index. -/
theorem synthesizer_cap_template_witness :
    (0 < ([ "abc", "def" ] : List String).length) ∧ (0 < 5) ∧
    (synthesize ["abc", "def"]).getD 0 "" =
      "Q" ++ toString (0 + 1) ++ ": What does this mean? → \"" ++
        jsTrim ((["abc", "def"] : List String).getD 0 "") ++ "?\"" :=
  ⟨by decide, by decide, (synthesizer_cap_template ["abc", "def"] 0).2.1 (by decide) (by decide)⟩

/-- Claim C3: the Candidate Filter keeps exactly the segments of length
strictly greater than 30, as a sublist (order preserved) with multiplicity
preserved (duplicates kept); length exactly 30 is excluded and length 31 is
kept exactly when present. -/
theorem filter_threshold (l : List String) (s : String) :
    (candidateFilter l).Sublist l ∧
    (∀ t : String, List.count t (candidateFilter l) =
      if 30 < t.length then List.count t l else 0) ∧
    (s.length = 30 → s ∉ candidateFilter l) ∧
    (s.length = 31 → (s ∈ candidateFilter l ↔ s ∈ l)) := by
  refine ⟨List.filter_sublist l, ?_, ?_, ?_⟩
  · intro t
    by_cases h : 30 < t.length
    · rw [if_pos h]
      exact List.count_filter (by simpa using h)
    · rw [if_neg h, List.count_eq_zero]
      intro hmem
      exact h (by simpa using (List.mem_filter.mp hmem).2)
  · intro h30 hmem
    have := (List.mem_filter.mp hmem).2
    simp [h30] at this
  · intro h31
    constructor
    · intro hmem; exact (List.mem_filter.mp hmem).1
    · intro hmem; exact List.mem_filter.mpr ⟨hmem, by simp [h31]⟩

/-- Claim C3, witness at concrete strings of length 30 and 31. -/
theorem filter_threshold_witness :
    ("aaaaaaaaaaaaaaaaaaaaaaaaaaaaaa" : String).length = 30 ∧
    "aaaaaaaaaaaaaaaaaaaaaaaaaaaaaa" ∉
      candidateFilter ["aaaaaaaaaaaaaaaaaaaaaaaaaaaaaa", "bbbbbbbbbbbbbbbbbbbbbbbbbbbbbbb"] ∧
    ("bbbbbbbbbbbbbbbbbbbbbbbbbbbbbbb" : String).length = 31 ∧
    ("bbbbbbbbbbbbbbbbbbbbbbbbbbbbbbb" ∈
      candidateFilter ["aaaaaaaaaaaaaaaaaaaaaaaaaaaaaa", "bbbbbbbbbbbbbbbbbbbbbbbbbbbbbbb"] ↔
      "bbbbbbbbbbbbbbbbbbbbbbbbbbbbbbb" ∈
        (["aaaaaaaaaaaaaaaaaaaaaaaaaaaaaa", "bbbbbbbbbbbbbbbbbbbbbbbbbbbbbbb"] : List String)) :=
  ⟨by decide,
   (filter_threshold ["aaaaaaaaaaaaaaaaaaaaaaaaaaaaaa", "bbbbbbbbbbbbbbbbbbbbbbbbbbbbbbb"]
     "aaaaaaaaaaaaaaaaaaaaaaaaaaaaaa").2.2.1 (by decide),
   by decide,
   (filter_threshold ["aaaaaaaaaaaaaaaaaaaaaaaaaaaaaa", "bbbbbbbbbbbbbbbbbbbbbbbbbbbbbbb"]
     "bbbbbbbbbbbbbbbbbbbbbbbbbbbbbbb").2.2.2 (by decide)⟩

/-- Claim C4: the Text Normalizer is total (the empty string maps to the
empty string) and its output never contains a newline, never contains two
adjacent spaces, and contains only allow-list characters and spaces. -/
theorem normalizer_total_invariant (s : String) :
    normalizeStr "" = "" ∧
    '\n' ∉ (normalizeStr s).data ∧
    ¬ [' ', ' '] <:+: (normalizeStr s).data ∧
    (∀ c ∈ (normalizeStr s).data, cleanChar c = true) := by
  obtain ⟨hchars, hchain, hhead, hlast⟩ := normalizeChars_normalForm s.data
  refine ⟨by decide, ?_, ?_, ?_⟩
  · intro hmem
    exact absurd ((hchars '\n' hmem).2 (by decide)) (by decide)
  · intro hinf
    have hc2 := hchain.infix hinf
    exact (List.chain'_cons.mp hc2).1 ⟨by decide, by decide⟩
  · intro c hmem
    by_cases hn : c = '\n'
    · subst hn
      exact absurd ((hchars _ hmem).2 (by decide)) (by decide)
    · exact cleanChar_of_allowed (hchars c hmem).1 hn

/-- Claim C4, witness at a concrete input containing newlines, runs of
spaces and a disallowed character. -/
theorem normalizer_total_invariant_witness :
    'a' ∈ (normalizeStr "a\n\n  b#").data ∧ cleanChar 'a' = true :=
  ⟨by decide, (normalizer_total_invariant "a\n\n  b#").2.2.2 'a' (by decide)⟩

/-- Claim C5: the Text Normalizer is idempotent — normalizing an already
normalized string changes nothing. -/
theorem normalizer_idempotent (s : String) :
    normalizeStr (normalizeStr s) = normalizeStr s := by
  apply String.ext
  exact normalizeChars_idem s.data

/-- Claim C6, counterexample: the Sentence Segmenter applied to the empty
string returns the one-element list containing the empty string, matching
ECMAScript split, not the empty list the spec states. -/
theorem segmenter_empty_cex :
    segmentStr "" = [""] ∧ ([""] : List String) ≠ ([] : List String) := by
  exact ⟨by decide, by decide⟩

/-- Claim C6, amended: the segmenter's pieces interleaved with delimiter
tokens reconstruct the input (pieces are substrings in original order), no
piece contains a delimiter token, an input with no delimiter occurrence maps
to the one-element list holding the whole input, and the empty input maps to
the one-element list holding the empty string. -/
theorem segmenter_spec (s : String) :
    (∃ ds, (∀ d ∈ ds, d ∈ delimTokens) ∧
      s.data = joinPieces ((segmentStr s).map String.data) ds) ∧
    (∀ p ∈ segmentStr s, ∀ pre d post, d ∈ delimTokens → p.data ≠ pre ++ d ++ post) ∧
    (containsDelim s.data = false ↔
      ∀ pre d post, d ∈ delimTokens → s.data ≠ pre ++ d ++ post) ∧
    (s ≠ "" → containsDelim s.data = false → segmentStr s = [s]) ∧
    (s = "" → segmentStr s = [""]) := by
  refine ⟨?_, ?_, ?_, ?_, ?_⟩
  · obtain ⟨ds, hds, hjoin⟩ := splitSentAux_join s.data []
    refine ⟨ds, hds, ?_⟩
    have hmap : (segmentStr s).map String.data = splitSent s.data := by
      unfold segmentStr
      rw [List.map_map]
      have hid : (String.data ∘ String.mk) = (fun q : List Char => q) := by
        funext q; rfl
      rw [hid]
      exact List.map_id (splitSent s.data)
    rw [hmap]
    simpa [splitSent] using hjoin
  · intro p hp pre d post hd
    unfold segmentStr at hp
    rw [List.mem_map] at hp
    obtain ⟨q, hq, rfl⟩ := hp
    exact chain_no_decomp (splitSent_chain s.data q hq) pre d post hd
  · constructor
    · intro hfalse pre d post hd heq
      have htrue := (containsDelim_iff s.data).mpr ⟨pre, d, post, hd, heq⟩
      rw [hfalse] at htrue
      exact Bool.false_ne_true htrue
    · intro hall
      cases hc : containsDelim s.data with
      | false => rfl
      | true =>
        obtain ⟨pre, d, post, hd, heq⟩ := (containsDelim_iff s.data).mp hc
        exact absurd heq (hall pre d post hd)
  · intro hne hnd
    unfold segmentStr splitSent
    rw [splitSentAux_nodelim s.data [] (chain_of_not_containsDelim s.data hnd)]
    simp only [List.reverse_nil, List.nil_append, List.map_cons, List.map_nil]
  · intro he
    subst he
    decide

/-- Claim C6, witness at a concrete delimiter-free input. -/
theorem segmenter_spec_witness :
    ("Hello" : String) ≠ "" ∧ containsDelim ("Hello" : String).data = false ∧
    segmentStr "Hello" = ["Hello"] :=
  ⟨by decide, by decide, (segmenter_spec "Hello").2.2.2.1 (by decide) (by decide)⟩

/-- Claim C7: the extraction loop joins each page's fragments with single
spaces in order, and DocumentText is the concatenation of the page strings
in page order, each followed by exactly one newline; a single-page document
yields that page's text followed by one newline. -/
theorem extractor_join_pages (pages : List (List String)) (page : List String)
    (a b : String) (rest : List String) :
    documentTextLoop pages = String.join (pages.map (fun p => pageTextOf p ++ "\n")) ∧
    documentTextLoop [page] = pageTextOf page ++ "\n" ∧
    pageTextOf [] = "" ∧
    pageTextOf [a] = a ∧
    pageTextOf (a :: b :: rest) = a ++ " " ++ pageTextOf (b :: rest) := by
  refine ⟨documentTextLoop_eq_join pages, ?_, rfl, rfl, ?_⟩
  · rw [documentTextLoop_eq_join, List.map_cons, List.map_nil, joinStr_cons, joinStr_nil,
      String.append_empty]
  · show String.intercalate.go a " " (b :: rest) = _
    rw [intercalate_go_eq]
    show _ = a ++ " " ++ String.intercalate.go b " " rest
    rw [intercalate_go_eq, List.map_cons, joinStr_cons]
    simp [String.append_assoc]

/-- Claim C8: the upload endpoint answers 400 with an error body when no
file is present, 500 with an error body when the decoder fails, 200 with a
text body on success; and a buffer the decoder rejects produces neither a
DocumentText nor a prompt list in the frontend flow. -/
theorem transport_shell_statuses {α : Type} (pdfParse : α → Except Unit String)
    (getDocument : α → Except Unit (List (List String))) (buf : α) :
    uploadHandler pdfParse none = (400, RespBody.errorField "No file uploaded") ∧
    (∀ e, pdfParse buf = Except.error e →
      uploadHandler pdfParse (some buf) = (500, RespBody.errorField "Failed to parse PDF")) ∧
    (∀ t, pdfParse buf = Except.ok t →
      uploadHandler pdfParse (some buf) = (200, RespBody.textField t)) ∧
    (∀ e, getDocument buf = Except.error e → fullPipeline getDocument buf = none) := by
  refine ⟨rfl, ?_, ?_, ?_⟩
  · intro e he; simp [uploadHandler, he]
  · intro t ht; simp [uploadHandler, ht]
  · intro e he; simp [fullPipeline, he]

/-- Claim C8, witness with a decoder that rejects every buffer. -/
theorem transport_shell_statuses_witness :
    ((fun _ : Nat => (Except.error () : Except Unit String)) 0 = Except.error ()) ∧
    uploadHandler (fun _ : Nat => (Except.error () : Except Unit String)) (some 0) =
      (500, RespBody.errorField "Failed to parse PDF") ∧
    fullPipeline (fun _ : Nat => (Except.error () : Except Unit (List (List String)))) 0 = none :=
  ⟨rfl,
   (transport_shell_statuses (fun _ : Nat => Except.error ()) (fun _ => Except.error ()) 0).2.1 () rfl,
   (transport_shell_statuses (fun _ : Nat => Except.error ()) (fun _ => Except.error ()) 0).2.2.2 () rfl⟩

/-- Claim C9: the Segmenter, Filter and Synthesizer composition is a pure
function of the normalized text — identical inputs give identical prompt
lists. -/
theorem pipeline_deterministic (s t : String) (h : s = t) :
    synthesize (candidateFilter (segmentStr s)) = synthesize (candidateFilter (segmentStr t)) := by
  rw [h]

/-- Claim C9, witness at one concrete repeated input. -/
theorem pipeline_deterministic_witness :
    ("Hello there. Bye" : String) = "Hello there. Bye" ∧
    synthesize (candidateFilter (segmentStr "Hello there. Bye")) =
      synthesize (candidateFilter (segmentStr "Hello there. Bye")) :=
  ⟨rfl, pipeline_deterministic "Hello there. Bye" "Hello there. Bye" rfl⟩

/-- Claim C10: the allow-list is ASCII-only — any character outside it, an
accented letter included, is replaced by one space, and the normalized
output consists only of ASCII allow-list characters and spaces, with no two
adjacent whitespace characters. -/
theorem normalizer_ascii_allowlist (c0 : Char) (s : String) :
    (allowedChar c0 = false → replaceDisallowed [c0] = [' ']) ∧
    allowedChar 'é' = false ∧
    normalizeStr "café" = "caf" ∧
    (∀ c ∈ (normalizeStr s).data, cleanChar c = true) ∧
    List.Chain' noWsPair (normalizeStr s).data := by
  obtain ⟨hchars, hchain, hhead, hlast⟩ := normalizeChars_normalForm s.data
  refine ⟨?_, by decide, by decide, ?_, hchain⟩
  · intro h
    simp [replaceDisallowed, h]
  · intro c hmem
    by_cases hn : c = '\n'
    · subst hn
      exact absurd ((hchars _ hmem).2 (by decide)) (by decide)
    · exact cleanChar_of_allowed (hchars c hmem).1 hn

/-- Claim C10, witness at the accented letter. -/
theorem normalizer_ascii_allowlist_witness :
    allowedChar 'é' = false ∧ replaceDisallowed ['é'] = [' '] :=
  ⟨by decide, (normalizer_ascii_allowlist 'é' "").1 (by decide)⟩
end PdfQuiz
